import Mathlib

/-!
Verification development for the file-discovery / log-tailing core and the
utility functions of this repository.

Strings are embedded as lists of characters (Go strings indexed by position);
machine integers that can be negative (Go string search results) are `Int`,
sizes and offsets are `Nat`.
-/

set_option autoImplicit false

/-- Go strings are modelled as lists of characters. -/
abbrev Str := List Char

/-! ### readLines (src/pkg/util/docker/util_common.go) -/

/-- Model of Go bufio dropCR: drops a single terminal carriage return. -/
def dropCR (l : Str) : Str :=
  if l.getLast? = some '\r' then l.dropLast else l

/-- Splits a character list at its first newline: returns the segment before
the first newline and, when a newline exists, the remainder after it. -/
def breakNL : Str → Str × Option Str
  | [] => ([], none)
  | c :: cs =>
    if c = '\n' then ([], some cs)
    else
      let p := breakNL cs
      (c :: p.1, p.2)

/-- Model of the Go bufio.Scanner token loop with the default line splitter:
repeatedly take the text before the next newline (dropping one terminal
carriage return); leftover data at end of input is a final line.  The fuel
argument only makes the recursion structural: every token consumes at
least one character, so any fuel at least the content's length gives the
loop's result. -/
def scanAllF : Nat → Str → List Str
  | _, [] => []
  | 0, _ :: _ => []
  | fuel + 1, c :: cs =>
    match breakNL (c :: cs) with
    | (pre, none) => [dropCR pre]
    | (pre, some rest) => dropCR pre :: scanAllF fuel rest

/-- The bufio.Scanner token loop run to completion on the whole content. -/
def scanAll (l : Str) : List Str := scanAllF l.length l

/-- readLines from src/pkg/util/docker/util_common.go: the file system is
abstracted as the result of os.Open — none is an open failure, some content
is the opened file's bytes.  On failure Go returns the slice containing one
empty string together with the error; on success it returns the scanned
lines and a nil error. -/
def readLines (openResult : Option Str) : List Str × Option Str :=
  match openResult with
  | none => ([[]], some ("open error".toList))
  | some content => (scanAll content, none)

/-- Independent characterization of "one element per line of the file with
line terminators stripped": a character-by-character accumulator that emits
the accumulated line at each newline and at end of input, stripping a
terminal carriage return from every emitted line. -/
def linesAux (acc : Str) : Str → List Str
  | [] => if acc = [] then [] else [dropCR acc.reverse]
  | c :: rest =>
    if c = '\n' then dropCR acc.reverse :: linesAux [] rest
    else linesAux (c :: acc) rest

/-! ### SplitImageName (src/pkg/util/docker/util_common.go) -/

/-- Go strings.LastIndex for a single character: index of the last
occurrence, -1 when absent. -/
def lastIndexOf (c : Char) : Str → Int
  | [] => -1
  | x :: xs =>
    let r := lastIndexOf c xs
    if 0 ≤ r then r + 1 else if x = c then 0 else -1

/-- Go strings.LastIndex for a pattern: start index of the last occurrence
of the pattern, -1 when absent. -/
def lastSubstrIndex (pat : Str) : Str → Int
  | [] => -1
  | x :: xs =>
    let r := lastSubstrIndex pat xs
    if 0 ≤ r then r + 1 else if pat.isPrefixOf (x :: xs) then 0 else -1

/-- The sha-pinning marker searched by SplitImageName. -/
def atShaPat : Str := "@sha".toList

/-- First step of SplitImageName: when the last occurrence of the marker is
at a positive index, cut the string there. -/
def shaStrip (image : Str) : Str :=
  let pos := lastSubstrIndex atShaPat image
  if 0 < pos then image.take pos.toNat else image

/-- SplitImageName from src/pkg/util/docker/util_common.go: empty input is
an error; otherwise cut a sha suffix, then split off a tag after the last
colon when it follows the last slash, and a short name after the last
slash.  Returns (long, short, tag). -/
def SplitImageName (image : Str) : Except Str (Str × Str × Str) :=
  if image = [] then .error ("empty image name".toList)
  else
    let long := shaStrip image
    let lastColon := lastIndexOf ':' long
    let lastSlash := lastIndexOf '/' long
    let hasTag := -1 < lastColon ∧ lastSlash < lastColon
    let tag := if hasTag then long.drop (lastColon.toNat + 1) else []
    let long2 := if hasTag then long.take lastColon.toNat else long
    let short := if 0 ≤ lastSlash then long2.drop (lastSlash.toNat + 1) else long2
    .ok (long2, short, tag)

/-- Declarative statement, following the amended claim wording, of the tag
and long-name result of SplitImageName relative to the sha-stripped
remainder r: either r decomposes at its last colon with no slash after it
and the tag is exactly the characters after that colon, or the tag is empty
and every colon of r has a slash after it. -/
def tagLongSpec (r long2 tag : Str) : Prop :=
  (∃ a b, r = a ++ ':' :: b ∧ ':' ∉ b ∧ '/' ∉ b ∧ tag = b ∧ long2 = a) ∨
  (tag = [] ∧ long2 = r ∧ ∀ a b, r = a ++ ':' :: b → '/' ∈ b)

/-- Declarative statement of the short-name result of SplitImageName: the
characters after the last slash of the remaining (tag-stripped) name, or
the whole remaining name when it has no slash. -/
def shortSpec (rem short : Str) : Prop :=
  (∃ a b, rem = a ++ '/' :: b ∧ '/' ∉ b ∧ short = b) ∨ ('/' ∉ rem ∧ short = rem)

/-! ### SubscribeLogs (src/pkg/serverless/serverless.go) -/

/-- SubscribeLogs from src/pkg/serverless/serverless.go.  External effects
are abstracted: uriValid is url.ParseRequestURI succeeding, putResponse is
the result of the PUT subscribe request (none is a transport error, some
code is the HTTP status).  The JSON marshalling of the constant payload and
the construction of the PUT request on the constant route cannot fail.
Returns the error result together with whether the PUT was performed. -/
def SubscribeLogs (uriValid : Str → Bool) (putResponse : Option Nat)
    (_extId httpAddr : Str) : Except Str Unit × Bool :=
  if uriValid httpAddr = false ∨ httpAddr = [] then
    (.error ("wrong http addr".toList), false)
  else
    match putResponse with
    | none => (.error ("PUT failed".toList), true)
    | some status =>
      if 300 ≤ status then (.error ("bad status".toList), true)
      else (.ok (), true)

/-! ### Scanner / Tailer / file identity model

The scanner, tailer and file-identity implementation of this repository is
not under src (only its test, pkg/logs/input/file/scanner_test.go, is), so
the subsystem is modelled from the spec, sections 3, 4.1 and 4.3. -/

/-- Modelled from the spec: a FileCandidate is the observation of one
on-disk file — path, device id, inode id and size (spec section 3). -/
structure FileCandidate where
  path : Str
  deviceID : Nat
  inodeID : Nat
  size : Nat
deriving DecidableEq

/-- Modelled from the spec: an on-disk file with its identity and byte
content; its candidate observation has the content's length as size. -/
structure DiskFile where
  path : Str
  deviceID : Nat
  inodeID : Nat
  content : Str
deriving DecidableEq

/-- The FileCandidate produced by statting a disk file. -/
def DiskFile.candidate (f : DiskFile) : FileCandidate :=
  ⟨f.path, f.deviceID, f.inodeID, f.content.length⟩

/-- Modelled from the spec: the filesystem visible to one reconciliation
pass is the list of files currently on disk, in discovery order. -/
abbrev Filesystem := List DiskFile

/-- Modelled from the spec: SameIdentity returns true iff device and inode
match, independent of size or path string (spec section 4.1). -/
def sameIdentity (a b : FileCandidate) : Bool :=
  a.deviceID == b.deviceID && a.inodeID == b.inodeID

/-- Modelled from the spec: a log source supplies a path or glob pattern,
an optional consumer identifier and a tailing-start mode (spec section 3);
the mode defaults to reading from the beginning, as exercised by
TestScannerScanStartNewTailer. -/
structure LogSource where
  pattern : Str
  identifier : Str
  fromBeginning : Bool
deriving DecidableEq

/-- Modelled from the spec: ComputeKey combines a resolved path with the
source's consumer identifier into the ScanKey string; the bare path is the
key when the source has no identifier (spec sections 3 and 4.1). -/
def computeKey (path identifier : Str) : Str :=
  if identifier = [] then path else path ++ ':' :: identifier

/-- Whether the first list is an initial segment of the second. -/
def strBegins : Str → Str → Bool
  | [], _ => true
  | _ :: _, [] => false
  | p :: ps, c :: cs => p == c && strBegins ps cs

/-- A simple glob matcher for Resolve, covering the pattern forms the
fixtures use: a pattern with a leading star matches every path ending with
the pattern's remainder, and any other pattern matches exactly itself. -/
def globMatch (pat s : Str) : Bool :=
  match pat with
  | '*' :: suf => strBegins suf.reverse s.reverse
  | _ => pat == s

/-- Modelled from the spec: a Tailer owns one open file, remembers the
identity observed when it was created, its current read offset, and the
lines it has emitted on its output channel (spec section 3).  The tid field
is the object identity: every Tailer ever created by the Scanner carries a
distinct tid, so tid equality models Go pointer equality. -/
structure Tailer where
  tid : Nat
  key : Str
  identity : FileCandidate
  offset : Nat
  outputChan : List Str
deriving DecidableEq

/-- Modelled from the spec: the Scanner holds the active sources, the live
ScanKey-to-Tailer map (an association list), the open-file limit and the
registry; regConfigID and regIdentifier are the registry's diagnostic
accessors, stopped records the tids of every Tailer that has been stopped
(and so has had its file handle closed). -/
structure Scanner where
  activeSources : List LogSource
  tailers : List (Str × Tailer)
  openFilesLimit : Nat
  nextTid : Nat
  registry : List (Str × Nat)
  regConfigID : Str
  regIdentifier : Str
  stopped : List Nat
deriving DecidableEq

/-- Association-list lookup on string keys (first match). -/
def lookupA {α : Type} : List (Str × α) → Str → Option α
  | [], _ => none
  | p :: rest, k => if p.1 = k then some p.2 else lookupA rest k

/-- Association-list update: replace the first entry with the given key, or
append the binding when the key is absent. -/
def setA {α : Type} : List (Str × α) → Str → α → List (Str × α)
  | [], k, v => [(k, v)]
  | p :: rest, k, v =>
    if p.1 = k then (k, v) :: rest else p :: setA rest k v

/-- Modelled from the spec: Resolve expands every active source to its
matching files and computes each candidate's ScanKey (spec section 4.3,
step 1), in source order then discovery order. -/
def candidatesOf (fs : Filesystem) (srcs : List LogSource) :
    List (Str × LogSource × DiskFile) :=
  srcs.flatMap fun src =>
    (fs.filter fun f => globMatch src.pattern f.path).map fun f =>
      (computeKey f.path src.identifier, src, f)

/-- The registry's identifier string for a tailed path, in the file:path
form reported by GetIdentifier. -/
def fileTag (p : Str) : Str := "file:".toList ++ p

/-- A freshly created Tailer: empty output channel, identity as observed at
creation time. -/
def newTailer (tid : Nat) (k : Str) (f : DiskFile) (off : Nat) : Tailer :=
  ⟨tid, k, f.candidate, off, []⟩

/-- Modelled from the spec: the start offset of a brand-new Tailer is the
registry's checkpoint for the key when present, else 0 for a
from-the-beginning source, else the file's current end (spec section 4.3,
step 4). -/
def startOffset (reg : List (Str × Nat)) (k : Str) (src : LogSource)
    (f : DiskFile) : Nat :=
  match lookupA reg k with
  | some off => off
  | none => if src.fromBeginning then 0 else f.content.length

/-- The mutable state threaded through one reconciliation pass: the tailer
map, the budget counter (the tailer count at the start of the pass plus the
starts of this pass — a file whose tailer disappears this pass frees budget
only for a future pass, spec section 4.3 step 5), the keys seen this pass,
and the scanner bookkeeping fields. -/
structure PassAcc where
  tailers : List (Str × Tailer)
  tailersLen : Nat
  tailed : List Str
  nextTid : Nat
  registry : List (Str × Nat)
  stopped : List Nat
  regConfigID : Str
  regIdentifier : Str
deriving DecidableEq

/-- Modelled from the spec: processing of one candidate during a pass (spec
section 4.3, steps 3 and 4).  A key with a live Tailer whose identity is
unchanged and whose size has not shrunk below the current offset is kept
untouched; a rotated key (identity changed, or same identity and size below
the current offset) has its Tailer stopped (checkpointing its offset) and
replaced by a fresh Tailer reading from offset 0; an untailed key gets a
new Tailer when the budget allows, and is deferred otherwise. -/
def scanStep (limit : Nat) (acc : PassAcc) (c : Str × LogSource × DiskFile) :
    PassAcc :=
  match lookupA acc.tailers c.1 with
  | some t =>
    if sameIdentity t.identity c.2.2.candidate = true ∧
        t.offset ≤ c.2.2.content.length then
      { acc with tailed := c.1 :: acc.tailed }
    else
      { acc with
        tailers := setA acc.tailers c.1 (newTailer acc.nextTid c.1 c.2.2 0),
        nextTid := acc.nextTid + 1,
        stopped := t.tid :: acc.stopped,
        registry := setA acc.registry c.1 t.offset,
        tailed := c.1 :: acc.tailed,
        regConfigID := c.2.1.identifier,
        regIdentifier := fileTag c.2.2.path }
  | none =>
    if acc.tailersLen < limit then
      { acc with
        tailers := acc.tailers ++
          [(c.1, newTailer acc.nextTid c.1 c.2.2
            (startOffset acc.registry c.1 c.2.1 c.2.2))],
        tailersLen := acc.tailersLen + 1,
        nextTid := acc.nextTid + 1,
        tailed := c.1 :: acc.tailed,
        regConfigID := c.2.1.identifier,
        regIdentifier := fileTag c.2.2.path }
    else acc

/-- Modelled from the spec: after the candidates have been processed, every
Tailer whose key was not seen this pass (file removed or source retired) is
stopped, checkpointed and removed from the map (spec section 4.3, step 2). -/
def removePhase (acc : PassAcc) : PassAcc :=
  { acc with
    tailers := acc.tailers.filter fun kt => decide (kt.1 ∈ acc.tailed),
    stopped :=
      ((acc.tailers.filter fun kt => decide (kt.1 ∉ acc.tailed)).map
        fun kt => kt.2.tid) ++ acc.stopped,
    registry :=
      (acc.tailers.filter fun kt => decide (kt.1 ∉ acc.tailed)).foldl
        (fun r kt => setA r kt.1 kt.2.offset) acc.registry }

/-- The pass accumulator at the start of a reconciliation pass. -/
def initAcc (s : Scanner) : PassAcc :=
  ⟨s.tailers, s.tailers.length, [], s.nextTid, s.registry, s.stopped,
    s.regConfigID, s.regIdentifier⟩

/-- Writes the pass accumulator back into the scanner. -/
def applyAcc (s : Scanner) (acc : PassAcc) : Scanner :=
  { s with
    tailers := acc.tailers,
    nextTid := acc.nextTid,
    registry := acc.registry,
    stopped := acc.stopped,
    regConfigID := acc.regConfigID,
    regIdentifier := acc.regIdentifier }

/-- Modelled from the spec: one full reconciliation pass over all active
sources (spec section 4.3): resolve candidates, reconcile each against the
live tailer map within the open-file budget, then stop and remove the
tailers whose keys are no longer desired. -/
def Scanner.scan (fs : Filesystem) (s : Scanner) : Scanner :=
  applyAcc s
    (removePhase
      ((candidatesOf fs s.activeSources).foldl
        (scanStep s.openFilesLimit) (initAcc s)))

/-- Modelled from the spec: AddSource registers a source and immediately
performs a partial reconciliation scoped to it, starting tailers for its
newly matched files within the remaining budget (spec section 4.3). -/
def Scanner.addSource (fs : Filesystem) (src : LogSource) (s : Scanner) :
    Scanner :=
  let s2 := { s with activeSources := s.activeSources ++ [src] }
  applyAcc s2
    ((candidatesOf fs [src]).foldl (scanStep s2.openFilesLimit) (initAcc s2))

/-- Finds the on-disk file carrying a given identity. -/
def findByIdentity (fs : Filesystem) (c : FileCandidate) : Option DiskFile :=
  fs.find? fun f => sameIdentity f.candidate c

/-- Modelled from the spec: one round of a Tailer's read loop (spec section
4.2): read the bytes between the current offset and the end of the file
that carries the Tailer's identity, emit them as lines on the output
channel and advance the offset; when the file has shrunk below the offset
the Tailer must not read from the now-invalid offset and waits for the
Scanner's next pass. -/
def Tailer.read (fs : Filesystem) (t : Tailer) : Tailer :=
  match findByIdentity fs t.identity with
  | none => t
  | some f =>
    if t.offset ≤ f.content.length then
      { t with
        outputChan := t.outputChan ++ scanAll (f.content.drop t.offset),
        offset := f.content.length }
    else t

/-- Runs one read-loop round of every live Tailer. -/
def Scanner.readPass (fs : Filesystem) (s : Scanner) : Scanner :=
  { s with tailers := s.tailers.map fun kt => (kt.1, (kt.2).read fs) }

/-- Modelled from the spec: Stop halts the loop and stops every live
Tailer, leaving the tailer map empty, every handle released (its tid
recorded in stopped) and every offset checkpointed (spec section 4.3). -/
def Scanner.stopAll (s : Scanner) : Scanner :=
  { s with
    tailers := [],
    stopped := (s.tailers.map fun kt => kt.2.tid) ++ s.stopped,
    registry := s.tailers.foldl (fun r kt => setA r kt.1 kt.2.offset)
      s.registry }

/-- Modelled from the spec: Start begins the periodic scan loop; running it
for n ticks performs n reconciliation passes. -/
def Scanner.run (fs : Filesystem) : Nat → Scanner → Scanner
  | 0, s => s
  | n + 1, s => Scanner.run fs n (s.scan fs)

/-! ### Concrete scenarios

Concrete states used by the testable-property parts of the claims and by
the witnesses; they mirror the fixtures of
src/pkg/logs/input/file/scanner_test.go. -/

/-- A source tailing the single file scanner.log, from the beginning. -/
def wSrc : LogSource := ⟨"scanner.log".toList, [], true⟩

/-- The ScanKey of scanner.log for a source with no identifier. -/
def wKey : Str := computeKey ("scanner.log".toList) []

/-- A Tailer that has already read the 12 bytes of one hello-world line of
scanner.log (device 1, inode 5). -/
def wTold : Tailer :=
  ⟨0, wKey, ⟨"scanner.log".toList, 1, 5, 12⟩, 12, ["hello world".toList]⟩

/-- A scanner with one live Tailer on scanner.log. -/
def wScan : Scanner :=
  { activeSources := [wSrc], tailers := [(wKey, wTold)], openFilesLimit := 100,
    nextTid := 1, registry := [], regConfigID := [],
    regIdentifier := fileTag ("scanner.log".toList), stopped := [] }

/-- scanner.log after a copy-truncate rotation: same device and inode, but
its 6 bytes are fewer than the Tailer's offset of 12. -/
def w1File : DiskFile := ⟨"scanner.log".toList, 1, 5, "third\n".toList⟩

/-- The filesystem after the copy-truncate rotation. -/
def w1Fs : Filesystem := [w1File]

/-- The replacement Tailer the copy-truncate pass must create. -/
def w1New : Tailer := newTailer 1 wKey w1File 0

/-- The old scanner.log renamed aside to scanner.log.1: identity kept. -/
def w2OldFile : DiskFile :=
  ⟨"scanner.log.1".toList, 1, 5, "hello world\n".toList⟩

/-- The fresh file created at scanner.log after the rename: new inode. -/
def w2NewFile : DiskFile := ⟨"scanner.log".toList, 1, 9, "hello again\n".toList⟩

/-- The filesystem after the rename rotation. -/
def w2Fs : Filesystem := [w2OldFile, w2NewFile]

/-- The replacement Tailer the rename-rotation pass must create. -/
def w2New : Tailer := newTailer 1 wKey w2NewFile 0

/-- scanner.log unchanged: same identity, size equal to the offset. -/
def w4File : DiskFile := ⟨"scanner.log".toList, 1, 5, "hello world\n".toList⟩

/-- The unchanged filesystem for the idempotent no-op pass. -/
def w4Fs : Filesystem := [w4File]

/-- A source whose glob pattern matches every .log file. -/
def c3Src : LogSource := ⟨"*.log".toList, [], true⟩

/-- First of three matching, initially empty, log files. -/
def c3File1 : DiskFile := ⟨"1.log".toList, 1, 1, []⟩

/-- Second of three matching log files. -/
def c3File2 : DiskFile := ⟨"2.log".toList, 1, 2, []⟩

/-- Third of three matching log files. -/
def c3File3 : DiskFile := ⟨"3.log".toList, 1, 3, []⟩

/-- A fresh scanner with an open-file limit of 2 over the glob source. -/
def c3Scan : Scanner :=
  { activeSources := [c3Src], tailers := [], openFilesLimit := 2,
    nextTid := 0, registry := [], regConfigID := [], regIdentifier := [],
    stopped := [] }

/-- Filesystem with the three matching files. -/
def c3FsA : Filesystem := [c3File1, c3File2, c3File3]

/-- Filesystem after the tailed 2.log has been removed. -/
def c3FsB : Filesystem := [c3File1, c3File3]

/-- The path of the container log tailed by two sources at once. -/
def c5Path : Str := "container.log".toList

/-- First consumer of container.log. -/
def c5Src1 : LogSource := ⟨c5Path, "123456789".toList, true⟩

/-- Second consumer of container.log, distinct identifier, same path. -/
def c5Src2 : LogSource := ⟨c5Path, "987654321".toList, true⟩

/-- container.log holding the two lines written before tailing starts. -/
def c5FileA : DiskFile := ⟨c5Path, 1, 7, "Once\nUpon\n".toList⟩

/-- container.log after two more lines are appended, same identity. -/
def c5FileB : DiskFile := ⟨c5Path, 1, 7, "Once\nUpon\nA\nTime\n".toList⟩

/-- A fresh scanner with an open-file limit of 3 and no sources yet. -/
def c5Init : Scanner :=
  { activeSources := [], tailers := [], openFilesLimit := 3, nextTid := 0,
    registry := [], regConfigID := [], regIdentifier := [], stopped := [] }

/-- State after the first consumer is added and its Tailer reads the two
pre-existing lines. -/
def c5A : Scanner := Scanner.readPass [c5FileA] (Scanner.addSource [c5FileA] c5Src1 c5Init)

/-- State after the two appended lines are read. -/
def c5B : Scanner := Scanner.readPass [c5FileB] c5A

/-- State after the second consumer is added for the same file and every
Tailer reads once more. -/
def c5C : Scanner := Scanner.readPass [c5FileB] (Scanner.addSource [c5FileB] c5Src2 c5B)

/-- The full line sequence each consumer must deliver. -/
def onceUponATime : List Str :=
  ["Once".toList, "Upon".toList, "A".toList, "Time".toList]

/-- A valid full image reference exercising every branch of
SplitImageName: registry, two path components, tag and sha pin. -/
def w8Image : Str := "docker.io/library/redis:6.0@sha256:abc".toList

/-- Expected long name of the witness image. -/
def w8Long : Str := "docker.io/library/redis".toList

/-- Expected short name of the witness image. -/
def w8Short : Str := "redis".toList

/-- Expected tag of the witness image. -/
def w8Tag : Str := "6.0".toList

/-! ### Association-list lemmas -/

theorem lookupA_append {α : Type} (l m : List (Str × α)) (k : Str) :
    lookupA (l ++ m) k =
      match lookupA l k with
      | some v => some v
      | none => lookupA m k := by
  induction l with
  | nil => simp [lookupA]
  | cons p rest ih =>
    by_cases h : p.1 = k
    · simp [lookupA, h]
    · simp [lookupA, h, ih]

theorem lookupA_setA_self {α : Type} (l : List (Str × α)) (k : Str) (v : α) :
    lookupA (setA l k v) k = some v := by
  induction l with
  | nil => simp [setA, lookupA]
  | cons p rest ih =>
    by_cases h : p.1 = k
    · simp [setA, h, lookupA]
    · simp [setA, h, lookupA, ih]

theorem lookupA_setA_ne {α : Type} (l : List (Str × α)) (k k2 : Str) (v : α)
    (h : k ≠ k2) : lookupA (setA l k v) k2 = lookupA l k2 := by
  induction l with
  | nil => simp [setA, lookupA, h]
  | cons p rest ih =>
    by_cases hp : p.1 = k
    · simp [setA, hp, lookupA, h]
    · simp [setA, hp, lookupA, ih]

theorem lookupA_mem {α : Type} {l : List (Str × α)} {k : Str} {v : α}
    (h : lookupA l k = some v) : (k, v) ∈ l := by
  induction l with
  | nil => simp [lookupA] at h
  | cons q rest ih =>
    obtain ⟨q1, q2⟩ := q
    by_cases hq : q1 = k
    · subst hq
      simp [lookupA] at h
      subst h
      exact List.mem_cons_self _ _
    · simp only [lookupA] at h
      rw [if_neg hq] at h
      exact List.mem_cons_of_mem _ (ih h)

theorem setA_length {α : Type} {l : List (Str × α)} {k : Str} {w : α}
    (v : α) (h : lookupA l k = some w) :
    (setA l k v).length = l.length := by
  induction l with
  | nil => simp [lookupA] at h
  | cons q rest ih =>
    obtain ⟨q1, q2⟩ := q
    by_cases hq : q1 = k
    · simp [setA, hq]
    · simp only [lookupA] at h
      rw [if_neg hq] at h
      simp [setA, hq, ih h]

theorem lookupA_filter {α : Type} {l : List (Str × α)} {k : Str} {v : α}
    (p : Str × α → Bool) (h : lookupA l k = some v) (hp : p (k, v) = true) :
    lookupA (l.filter p) k = some v := by
  induction l with
  | nil => simp [lookupA] at h
  | cons q rest ih =>
    obtain ⟨q1, q2⟩ := q
    by_cases hq : q1 = k
    · subst hq
      simp [lookupA] at h
      subst h
      simp [List.filter_cons, hp, lookupA]
    · simp only [lookupA] at h
      rw [if_neg hq] at h
      by_cases hpq : p (q1, q2) = true
      · simp [List.filter_cons, hpq, lookupA, hq, ih h]
      · simp only [Bool.not_eq_true] at hpq
        simp [List.filter_cons, hpq, ih h]

/-! ### Reconciliation-pass lemmas -/

theorem lookupA_append_single_ne {α : Type} (l : List (Str × α)) (k1 k : Str)
    (v : α) (h : k1 ≠ k) : lookupA (l ++ [(k1, v)]) k = lookupA l k := by
  rw [lookupA_append]
  cases lookupA l k <;> simp [lookupA, h]

theorem scanStep_lookup_ne (limit : Nat) (acc : PassAcc)
    (c : Str × LogSource × DiskFile) (k : Str) (h : c.1 ≠ k) :
    lookupA (scanStep limit acc c).tailers k = lookupA acc.tailers k := by
  unfold scanStep
  cases hl : lookupA acc.tailers c.1 with
  | none =>
    by_cases hb : acc.tailersLen < limit
    · simp only [hb, if_pos]
      exact lookupA_append_single_ne _ _ _ _ h
    · simp [hb]
  | some t =>
    by_cases hc : sameIdentity t.identity c.2.2.candidate = true ∧
        t.offset ≤ c.2.2.content.length
    · simp [hc]
    · simp only [hc, if_neg, if_false]
      exact lookupA_setA_ne _ _ _ _ h

theorem foldl_lookup_ne (limit : Nat) (cs : List (Str × LogSource × DiskFile))
    (k : Str) :
    ∀ acc : PassAcc, (∀ c ∈ cs, c.1 ≠ k) →
      lookupA (cs.foldl (scanStep limit) acc).tailers k = lookupA acc.tailers k := by
  induction cs with
  | nil => intro acc _; rfl
  | cons c rest ih =>
    intro acc h
    rw [List.foldl_cons, ih _ (fun d hd => h d (List.mem_cons_of_mem _ hd))]
    exact scanStep_lookup_ne _ _ _ _ (h c (List.mem_cons_self _ _))

theorem scanStep_tailed_mono (limit : Nat) (acc : PassAcc)
    (c : Str × LogSource × DiskFile) (k : Str) (h : k ∈ acc.tailed) :
    k ∈ (scanStep limit acc c).tailed := by
  unfold scanStep
  cases lookupA acc.tailers c.1 with
  | none =>
    by_cases hb : acc.tailersLen < limit <;>
      simp [hb, List.mem_cons_of_mem, h]
  | some t =>
    by_cases hc : sameIdentity t.identity c.2.2.candidate = true ∧
        t.offset ≤ c.2.2.content.length <;>
      simp [hc, List.mem_cons_of_mem, h]

theorem foldl_tailed_mono (limit : Nat) (cs : List (Str × LogSource × DiskFile))
    (k : Str) :
    ∀ acc : PassAcc, k ∈ acc.tailed →
      k ∈ (cs.foldl (scanStep limit) acc).tailed := by
  induction cs with
  | nil => intro acc h; exact h
  | cons c rest ih =>
    intro acc h
    exact ih _ (scanStep_tailed_mono _ _ _ _ h)

theorem scanStep_stopped_mono (limit : Nat) (acc : PassAcc)
    (c : Str × LogSource × DiskFile) (i : Nat) (h : i ∈ acc.stopped) :
    i ∈ (scanStep limit acc c).stopped := by
  unfold scanStep
  cases lookupA acc.tailers c.1 with
  | none =>
    by_cases hb : acc.tailersLen < limit <;> simp [hb, h]
  | some t =>
    by_cases hc : sameIdentity t.identity c.2.2.candidate = true ∧
        t.offset ≤ c.2.2.content.length <;>
      simp [hc, List.mem_cons_of_mem, h]

theorem foldl_stopped_mono (limit : Nat) (cs : List (Str × LogSource × DiskFile))
    (i : Nat) :
    ∀ acc : PassAcc, i ∈ acc.stopped →
      i ∈ (cs.foldl (scanStep limit) acc).stopped := by
  induction cs with
  | nil => intro acc h; exact h
  | cons c rest ih =>
    intro acc h
    exact ih _ (scanStep_stopped_mono _ _ _ _ h)

theorem scanStep_nextTid_mono (limit : Nat) (acc : PassAcc)
    (c : Str × LogSource × DiskFile) :
    acc.nextTid ≤ (scanStep limit acc c).nextTid := by
  unfold scanStep
  cases lookupA acc.tailers c.1 with
  | none =>
    by_cases hb : acc.tailersLen < limit <;> simp [hb]
  | some t =>
    by_cases hc : sameIdentity t.identity c.2.2.candidate = true ∧
        t.offset ≤ c.2.2.content.length <;>
      simp [hc]

theorem foldl_nextTid_mono (limit : Nat) (cs : List (Str × LogSource × DiskFile)) :
    ∀ acc : PassAcc, acc.nextTid ≤ (cs.foldl (scanStep limit) acc).nextTid := by
  induction cs with
  | nil => intro acc; exact Nat.le_refl _
  | cons c rest ih =>
    intro acc
    exact Nat.le_trans (scanStep_nextTid_mono _ _ _) (ih _)

theorem scanStep_len_eq (limit : Nat) (acc : PassAcc)
    (c : Str × LogSource × DiskFile) (h : acc.tailers.length = acc.tailersLen) :
    (scanStep limit acc c).tailers.length = (scanStep limit acc c).tailersLen := by
  unfold scanStep
  cases hl : lookupA acc.tailers c.1 with
  | none =>
    by_cases hb : acc.tailersLen < limit <;> simp [hb, h]
  | some t =>
    by_cases hc : sameIdentity t.identity c.2.2.candidate = true ∧
        t.offset ≤ c.2.2.content.length
    · simp [hc, h]
    · simp only [hc, if_neg, if_false]
      show (setA acc.tailers c.1 (newTailer acc.nextTid c.1 c.2.2 0)).length =
        acc.tailersLen
      rw [setA_length _ hl]
      exact h

theorem foldl_len_eq (limit : Nat) (cs : List (Str × LogSource × DiskFile)) :
    ∀ acc : PassAcc, acc.tailers.length = acc.tailersLen →
      (cs.foldl (scanStep limit) acc).tailers.length =
        (cs.foldl (scanStep limit) acc).tailersLen := by
  induction cs with
  | nil => intro acc h; exact h
  | cons c rest ih =>
    intro acc h
    exact ih _ (scanStep_len_eq _ _ _ h)

theorem scanStep_budget (limit : Nat) (acc : PassAcc)
    (c : Str × LogSource × DiskFile) (h : acc.tailersLen ≤ limit) :
    (scanStep limit acc c).tailersLen ≤ limit := by
  unfold scanStep
  cases lookupA acc.tailers c.1 with
  | none =>
    by_cases hb : acc.tailersLen < limit <;> simp [hb, h]
    omega
  | some t =>
    by_cases hc : sameIdentity t.identity c.2.2.candidate = true ∧
        t.offset ≤ c.2.2.content.length <;>
      simp [hc, h]

theorem foldl_budget (limit : Nat) (cs : List (Str × LogSource × DiskFile)) :
    ∀ acc : PassAcc, acc.tailersLen ≤ limit →
      (cs.foldl (scanStep limit) acc).tailersLen ≤ limit := by
  induction cs with
  | nil => intro acc h; exact h
  | cons c rest ih =>
    intro acc h
    exact ih _ (scanStep_budget _ _ _ h)

theorem removePhase_lookup (acc : PassAcc) (k : Str) (v : Tailer)
    (h : lookupA acc.tailers k = some v) (ht : k ∈ acc.tailed) :
    lookupA (removePhase acc).tailers k = some v := by
  unfold removePhase
  exact lookupA_filter _ h (by simp [ht])

theorem removePhase_stopped_mono (acc : PassAcc) (i : Nat)
    (h : i ∈ acc.stopped) : i ∈ (removePhase acc).stopped := by
  unfold removePhase
  exact List.mem_append_right _ h

theorem removePhase_len_le (acc : PassAcc) :
    (removePhase acc).tailers.length ≤ acc.tailers.length := by
  unfold removePhase
  exact List.length_filter_le _ _

theorem scan_rotate_aux (fs : Filesystem) (s : Scanner)
    (l1 l2 : List (Str × LogSource × DiskFile)) (k : Str) (src : LogSource)
    (f : DiskFile) (t : Tailer)
    (hcand : candidatesOf fs s.activeSources = l1 ++ (k, src, f) :: l2)
    (h1 : ∀ c ∈ l1, c.1 ≠ k) (h2 : ∀ c ∈ l2, c.1 ≠ k)
    (ht : lookupA s.tailers k = some t)
    (hrot : ¬ (sameIdentity t.identity f.candidate = true ∧
      t.offset ≤ f.content.length)) :
    t.tid ∈ (Scanner.scan fs s).stopped ∧
    ∃ n, s.nextTid ≤ n ∧
      lookupA (Scanner.scan fs s).tailers k = some (newTailer n k f 0) := by
  unfold Scanner.scan
  rw [hcand, List.foldl_append, List.foldl_cons]
  have e1 : lookupA (l1.foldl (scanStep s.openFilesLimit) (initAcc s)).tailers k
      = some t :=
    (foldl_lookup_ne s.openFilesLimit l1 k (initAcc s) h1).trans ht
  have etid : s.nextTid ≤
      (l1.foldl (scanStep s.openFilesLimit) (initAcc s)).nextTid :=
    foldl_nextTid_mono s.openFilesLimit l1 (initAcc s)
  set acc1 := l1.foldl (scanStep s.openFilesLimit) (initAcc s) with hacc1
  have estep : scanStep s.openFilesLimit acc1 (k, src, f) =
      { acc1 with
        tailers := setA acc1.tailers k (newTailer acc1.nextTid k f 0),
        nextTid := acc1.nextTid + 1,
        stopped := t.tid :: acc1.stopped,
        registry := setA acc1.registry k t.offset,
        tailed := k :: acc1.tailed,
        regConfigID := src.identifier,
        regIdentifier := fileTag f.path } := by
    simp only [scanStep]
    rw [e1]
    simp only [if_neg hrot]
  have ha : lookupA (scanStep s.openFilesLimit acc1 (k, src, f)).tailers k =
      some (newTailer acc1.nextTid k f 0) := by
    rw [estep]
    exact lookupA_setA_self _ _ _
  have hbm : k ∈ (scanStep s.openFilesLimit acc1 (k, src, f)).tailed := by
    rw [estep]
    exact List.mem_cons_self _ _
  have hcm : t.tid ∈ (scanStep s.openFilesLimit acc1 (k, src, f)).stopped := by
    rw [estep]
    exact List.mem_cons_self _ _
  have e3 := (foldl_lookup_ne s.openFilesLimit l2 k _ h2).trans ha
  have e4 := foldl_tailed_mono s.openFilesLimit l2 k _ hbm
  have e5 := foldl_stopped_mono s.openFilesLimit l2 t.tid _ hcm
  have e6 := removePhase_lookup _ _ _ e3 e4
  have e7 := removePhase_stopped_mono _ _ e5
  exact ⟨e7, acc1.nextTid, etid, e6⟩

/-- C1: for a tailed file whose identity is unchanged but whose freshly
observed size is smaller than the Tailer's current offset (copy-truncate
rotation), one reconciliation pass stops and removes the existing Tailer
(its tid enters the stopped set) and installs a fresh Tailer for the same
ScanKey reading from offset 0 with the fresh identity; the new Tailer has a
different tid (object identity), and its next read delivers exactly the
lines of the post-truncation content — pre-truncation content is never
re-emitted since the new Tailer starts from offset 0 of the truncated file
with an empty output channel. -/
theorem scan_copy_truncate_replaces_tailer (fs : Filesystem) (s : Scanner)
    (l1 l2 : List (Str × LogSource × DiskFile)) (k : Str) (src : LogSource)
    (f : DiskFile) (t : Tailer)
    (hcand : candidatesOf fs s.activeSources = l1 ++ (k, src, f) :: l2)
    (h1 : ∀ c ∈ l1, c.1 ≠ k) (h2 : ∀ c ∈ l2, c.1 ≠ k)
    (ht : lookupA s.tailers k = some t)
    (htid : ∀ kt ∈ s.tailers, kt.2.tid < s.nextTid)
    (hid : sameIdentity t.identity f.candidate = true)
    (hsz : f.content.length < t.offset)
    (hfind : findByIdentity fs f.candidate = some f) :
    (lookupA (Scanner.scan fs s).tailers k).isSome = true ∧
    t.tid ∈ (Scanner.scan fs s).stopped ∧
    ∀ t2, lookupA (Scanner.scan fs s).tailers k = some t2 →
      t2.tid ≠ t.tid ∧ t2.offset = 0 ∧ t2.identity = f.candidate ∧
      (Tailer.read fs t2).outputChan = scanAll f.content := by
  have hrot : ¬ (sameIdentity t.identity f.candidate = true ∧
      t.offset ≤ f.content.length) := by
    intro hcon
    omega
  obtain ⟨hstop, n, hn, hlook⟩ :=
    scan_rotate_aux fs s l1 l2 k src f t hcand h1 h2 ht hrot
  refine ⟨by rw [hlook]; rfl, hstop, ?_⟩
  intro t2 h2l
  rw [hlook] at h2l
  have ht2 : t2 = newTailer n k f 0 := (Option.some.inj h2l).symm
  subst ht2
  have httid : t.tid < s.nextTid := htid (k, t) (lookupA_mem ht)
  refine ⟨by simp only [newTailer]; omega, rfl, rfl, ?_⟩
  unfold Tailer.read
  rw [show (newTailer n k f 0).identity = f.candidate from rfl, hfind]
  simp [newTailer]

/-- Witness for C1: the concrete copy-truncate fixture of
TestScannerScanWithLogRotationCopyTruncate — a Tailer at offset 12 of
scanner.log, which now has the same device and inode but only the 6 bytes
of one new line; the pass replaces the Tailer and the replacement delivers
exactly the new line. -/
theorem scan_copy_truncate_replaces_tailer_w :
    w1New.tid ≠ wTold.tid ∧ w1New.offset = 0 ∧
    w1New.identity = w1File.candidate ∧
    (Tailer.read w1Fs w1New).outputChan = scanAll w1File.content :=
  (scan_copy_truncate_replaces_tailer w1Fs wScan [] [] wKey wSrc w1File wTold
    (by decide) (by simp) (by simp) (by decide) (by decide) (by decide)
    (by decide) (by decide)).2.2 w1New (by decide)

/-- C2: for a tailed path where the file was renamed aside and a fresh file
(with a different device/inode) was created at the original path (rename
rotation), one reconciliation pass stops the existing Tailer and installs a
distinct fresh Tailer for the same ScanKey, reading the new file from
offset 0; its next read delivers exactly the lines of the new file at the
path, so no lines of the renamed-away old file are redelivered by it. -/
theorem scan_rename_rotation_replaces_tailer (fs : Filesystem) (s : Scanner)
    (l1 l2 : List (Str × LogSource × DiskFile)) (k : Str) (src : LogSource)
    (f : DiskFile) (t : Tailer)
    (hcand : candidatesOf fs s.activeSources = l1 ++ (k, src, f) :: l2)
    (h1 : ∀ c ∈ l1, c.1 ≠ k) (h2 : ∀ c ∈ l2, c.1 ≠ k)
    (ht : lookupA s.tailers k = some t)
    (htid : ∀ kt ∈ s.tailers, kt.2.tid < s.nextTid)
    (hid : sameIdentity t.identity f.candidate = false)
    (hfind : findByIdentity fs f.candidate = some f) :
    (lookupA (Scanner.scan fs s).tailers k).isSome = true ∧
    t.tid ∈ (Scanner.scan fs s).stopped ∧
    ∀ t2, lookupA (Scanner.scan fs s).tailers k = some t2 →
      t2.tid ≠ t.tid ∧ t2.offset = 0 ∧ t2.identity = f.candidate ∧
      (Tailer.read fs t2).outputChan = scanAll f.content := by
  have hrot : ¬ (sameIdentity t.identity f.candidate = true ∧
      t.offset ≤ f.content.length) := by
    intro hcon
    rw [hid] at hcon
    exact Bool.false_ne_true hcon.1
  obtain ⟨hstop, n, hn, hlook⟩ :=
    scan_rotate_aux fs s l1 l2 k src f t hcand h1 h2 ht hrot
  refine ⟨by rw [hlook]; rfl, hstop, ?_⟩
  intro t2 h2l
  rw [hlook] at h2l
  have ht2 : t2 = newTailer n k f 0 := (Option.some.inj h2l).symm
  subst ht2
  have httid : t.tid < s.nextTid := htid (k, t) (lookupA_mem ht)
  refine ⟨by simp only [newTailer]; omega, rfl, rfl, ?_⟩
  unfold Tailer.read
  rw [show (newTailer n k f 0).identity = f.candidate from rfl, hfind]
  simp [newTailer]

/-- Witness for C2: the concrete rename fixture of
TestScannerScanWithLogRotation — scanner.log renamed to scanner.log.1 and a
fresh file (inode 9) created at scanner.log; the pass replaces the Tailer
and the replacement delivers exactly the new file's line. -/
theorem scan_rename_rotation_replaces_tailer_w :
    w2New.tid ≠ wTold.tid ∧ w2New.offset = 0 ∧
    w2New.identity = w2NewFile.candidate ∧
    (Tailer.read w2Fs w2New).outputChan = scanAll w2NewFile.content :=
  (scan_rename_rotation_replaces_tailer w2Fs wScan [] [] wKey wSrc w2NewFile
    wTold (by decide) (by simp) (by simp) (by decide) (by decide) (by decide)
    (by decide)).2.2 w2New (by decide)

/-- C4: the reconciliation pass is idempotent on an unchanged filesystem —
for a ScanKey whose file's identity is unchanged and whose size is at least
the Tailer's current offset, the pass keeps the exact same Tailer value
(same tid, i.e. Go pointer identity) in the tailer map. -/
theorem scan_noop_keeps_tailer_instance (fs : Filesystem) (s : Scanner)
    (l1 l2 : List (Str × LogSource × DiskFile)) (k : Str) (src : LogSource)
    (f : DiskFile) (t : Tailer)
    (hcand : candidatesOf fs s.activeSources = l1 ++ (k, src, f) :: l2)
    (h1 : ∀ c ∈ l1, c.1 ≠ k) (h2 : ∀ c ∈ l2, c.1 ≠ k)
    (ht : lookupA s.tailers k = some t)
    (hid : sameIdentity t.identity f.candidate = true)
    (hsz : t.offset ≤ f.content.length) :
    lookupA (Scanner.scan fs s).tailers k = some t := by
  unfold Scanner.scan
  rw [hcand, List.foldl_append, List.foldl_cons]
  have e1 : lookupA (l1.foldl (scanStep s.openFilesLimit) (initAcc s)).tailers k
      = some t :=
    (foldl_lookup_ne s.openFilesLimit l1 k (initAcc s) h1).trans ht
  set acc1 := l1.foldl (scanStep s.openFilesLimit) (initAcc s) with hacc1
  have estep : scanStep s.openFilesLimit acc1 (k, src, f) =
      { acc1 with tailed := k :: acc1.tailed } := by
    simp only [scanStep]
    rw [e1]
    simp only [if_pos (And.intro hid hsz)]
  have ha : lookupA (scanStep s.openFilesLimit acc1 (k, src, f)).tailers k =
      some t := by
    rw [estep]
    exact e1
  have hbm : k ∈ (scanStep s.openFilesLimit acc1 (k, src, f)).tailed := by
    rw [estep]
    exact List.mem_cons_self _ _
  have e3 := (foldl_lookup_ne s.openFilesLimit l2 k _ h2).trans ha
  have e4 := foldl_tailed_mono s.openFilesLimit l2 k _ hbm
  exact removePhase_lookup _ _ _ e3 e4

/-- Witness for C4: the unchanged fixture of
TestScannerScanWithoutLogRotation — scanner.log still has device 1, inode
5 and exactly the 12 bytes the Tailer has already read; the pass returns
the very same Tailer value. -/
theorem scan_noop_keeps_tailer_instance_w :
    lookupA (Scanner.scan w4Fs wScan).tailers wKey = some wTold :=
  scan_noop_keeps_tailer_instance w4Fs wScan [] [] wKey wSrc w4File wTold
    (by decide) (by simp) (by simp) (by decide) (by decide) (by decide)

theorem scanStep_start (limit : Nat) (acc : PassAcc)
    (c : Str × LogSource × DiskFile) (hl : lookupA acc.tailers c.1 = none)
    (hb : acc.tailersLen < limit) :
    scanStep limit acc c =
      { acc with
        tailers := acc.tailers ++
          [(c.1, newTailer acc.nextTid c.1 c.2.2
            (startOffset acc.registry c.1 c.2.1 c.2.2))],
        tailersLen := acc.tailersLen + 1,
        nextTid := acc.nextTid + 1,
        tailed := c.1 :: acc.tailed,
        regConfigID := c.2.1.identifier,
        regIdentifier := fileTag c.2.2.path } := by
  unfold scanStep
  rw [hl]
  simp only [if_pos hb]

/-- C3: at the end of every reconciliation pass the number of live Tailers
is at most the configured open-file limit (given it was within the limit
before the pass — a pass never starts more Tailers than the budget,
counted against the tailer count at the start of the pass); concretely,
with the three matching files of TestScannerScanWithTooManyFiles and a
limit of 2, the first pass tails exactly 2 files, removing the tailed
2.log drops the live count to 1 on the next pass (budget freed by the
removal is not reused within that same pass), and the pass after that
raises it back to 2 by picking up the previously deferred 3.log. -/
theorem scan_respects_open_files_limit :
    (∀ (fs : Filesystem) (s : Scanner), s.tailers.length ≤ s.openFilesLimit →
      (Scanner.scan fs s).tailers.length ≤ s.openFilesLimit) ∧
    (Scanner.scan c3FsA c3Scan).tailers.length = 2 ∧
    (Scanner.scan c3FsB (Scanner.scan c3FsA c3Scan)).tailers.length = 1 ∧
    (Scanner.scan c3FsB (Scanner.scan c3FsB
      (Scanner.scan c3FsA c3Scan))).tailers.length = 2 ∧
    (lookupA (Scanner.scan c3FsB (Scanner.scan c3FsB
      (Scanner.scan c3FsA c3Scan))).tailers
      (computeKey ("3.log".toList) [])).isSome = true := by
  refine ⟨?_, by decide, by decide, by decide, by decide⟩
  intro fs s h
  show (removePhase ((candidatesOf fs s.activeSources).foldl
    (scanStep s.openFilesLimit) (initAcc s))).tailers.length ≤ s.openFilesLimit
  refine Nat.le_trans (removePhase_len_le _) ?_
  rw [foldl_len_eq s.openFilesLimit (candidatesOf fs s.activeSources)
    (initAcc s) rfl]
  exact foldl_budget s.openFilesLimit (candidatesOf fs s.activeSources)
    (initAcc s) h

/-- Witness for C3: the general budget bound applied to the concrete
three-file fixture (limit 2, pass starting from the empty tailer map). -/
theorem scan_respects_open_files_limit_w :
    (Scanner.scan c3FsA c3Scan).tailers.length ≤ c3Scan.openFilesLimit :=
  scan_respects_open_files_limit.1 c3FsA c3Scan (by decide)

/-- C5: ComputeKey separates consumers — for every path, two different
consumer identifiers give two different ScanKeys, and the key is a pure
function of path and identifier so a source re-resolving to the same path
always gets the same key; concretely, in the two-consumer fixture of
TestScannerWithConcurrentContainerTailer the tailer map holds two entries
for the single physical container.log, and each consumer's Tailer has
independently delivered the full sequence Once, Upon, A, Time written
before and after its creation. -/
theorem scan_key_multi_consumer :
    (∀ p i1 i2 : Str, i1 ≠ i2 → computeKey p i1 ≠ computeKey p i2) ∧
    c5C.tailers.length = 2 ∧
    Option.map (fun t => t.outputChan)
      (lookupA c5C.tailers (computeKey c5Path c5Src1.identifier)) =
      some onceUponATime ∧
    Option.map (fun t => t.outputChan)
      (lookupA c5C.tailers (computeKey c5Path c5Src2.identifier)) =
      some onceUponATime := by
  refine ⟨?_, by decide, by decide, by decide⟩
  intro p i1 i2 hne he
  unfold computeKey at he
  by_cases h1 : i1 = []
  · subst h1
    by_cases h2 : i2 = []
    · exact hne h2.symm
    · rw [if_pos rfl, if_neg h2] at he
      have hlen := congrArg List.length he
      simp only [List.length_append, List.length_cons] at hlen
      omega
  · by_cases h2 : i2 = []
    · subst h2
      rw [if_neg h1, if_pos rfl] at he
      have hlen := congrArg List.length he
      simp only [List.length_append, List.length_cons] at hlen
      omega
    · rw [if_neg h1, if_neg h2] at he
      have h3 := List.append_cancel_left he
      injection h3 with _ h4
      exact hne h4

/-- Witness for C5: the key-separation fact applied at the two concrete
consumer identifiers of the fixture. -/
theorem scan_key_multi_consumer_w :
    computeKey c5Path c5Src1.identifier ≠ computeKey c5Path c5Src2.identifier :=
  scan_key_multi_consumer.1 c5Path c5Src1.identifier c5Src2.identifier
    (by decide)

/-- C6: process lifecycle — after running the periodic scan loop any number
of ticks from any state, Stop leaves the tailer map empty, and every
Tailer live immediately before the stop has been stopped (its tid is in
the stopped set, meaning its read loop ended and its file handle was
released). -/
theorem scanner_stop_clears_tailers (fs : Filesystem) (n : Nat) (s : Scanner) :
    (Scanner.stopAll (Scanner.run fs n s)).tailers = [] ∧
    (((Scanner.run fs n s).tailers.map fun kt => kt.2.tid).all
      fun i => decide (i ∈ (Scanner.stopAll (Scanner.run fs n s)).stopped)) =
      true := by
  constructor
  · rfl
  · simp only [List.all_eq_true, decide_eq_true_eq]
    intro i hi
    exact List.mem_append_left _ hi

/-- C7: after a Tailer becomes active for a source, the registry's
GetConfigID reports that source's consumer identifier and GetIdentifier
reports the tailed file's identity string in the file:path form; in the
two-consumer fixture, adding a second source for the same file with a
different identifier updates GetConfigID to the second identifier while
GetIdentifier still reports the same file:path string. -/
theorem registry_reports_active_source :
    (∀ (fs : Filesystem) (s : Scanner) (src : LogSource) (k : Str)
      (f : DiskFile),
      candidatesOf fs [src] = [(k, src, f)] →
      lookupA s.tailers k = none →
      s.tailers.length < s.openFilesLimit →
      (Scanner.addSource fs src s).regConfigID = src.identifier ∧
      (Scanner.addSource fs src s).regIdentifier = fileTag f.path) ∧
    ((Scanner.addSource [c5FileB] c5Src2 c5B).regConfigID =
      c5Src2.identifier ∧
     (Scanner.addSource [c5FileB] c5Src2 c5B).regIdentifier =
      fileTag c5Path ∧
     c5A.regConfigID = c5Src1.identifier ∧
     c5A.regIdentifier = fileTag c5Path) := by
  refine ⟨?_, by decide, by decide, by decide, by decide⟩
  intro fs s src k f hc hl hb
  have hstep := scanStep_start s.openFilesLimit
    (initAcc { s with activeSources := s.activeSources ++ [src] })
    (k, src, f) hl hb
  constructor
  · show (applyAcc { s with activeSources := s.activeSources ++ [src] }
      ((candidatesOf fs [src]).foldl (scanStep s.openFilesLimit)
        (initAcc { s with activeSources := s.activeSources ++ [src] })
      )).regConfigID = src.identifier
    rw [hc, List.foldl_cons, List.foldl_nil, hstep]
    rfl
  · show (applyAcc { s with activeSources := s.activeSources ++ [src] }
      ((candidatesOf fs [src]).foldl (scanStep s.openFilesLimit)
        (initAcc { s with activeSources := s.activeSources ++ [src] })
      )).regIdentifier = fileTag f.path
    rw [hc, List.foldl_cons, List.foldl_nil, hstep]
    rfl

/-- Witness for C7: the general start fact applied to the first consumer's
arrival in the fixture: afterwards the registry reports its identifier and
the file:container.log identity string. -/
theorem registry_reports_active_source_w :
    (Scanner.addSource [c5FileA] c5Src1 c5Init).regConfigID =
      c5Src1.identifier ∧
    (Scanner.addSource [c5FileA] c5Src1 c5Init).regIdentifier =
      fileTag c5FileA.path :=
  registry_reports_active_source.1 [c5FileA] c5Init c5Src1
    (computeKey c5Path c5Src1.identifier) c5FileA (by decide) (by decide)
    (by decide)

/-- C9: SubscribeLogs returns an error whenever the address is empty or
fails to parse as a request URI, and in that case the subscription PUT
request is not performed; the result is success only when the address was
valid and non-empty, the PUT was performed, and its HTTP status code was
below 300. -/
theorem subscribe_logs_guard :
    (∀ (v : Str → Bool) (p : Option Nat) (i a : Str),
      v a = false ∨ a = [] →
      SubscribeLogs v p i a = (.error ("wrong http addr".toList), false)) ∧
    (∀ (v : Str → Bool) (p : Option Nat) (i a : Str),
      (SubscribeLogs v p i a).1 = .ok () →
      v a = true ∧ a ≠ [] ∧ (SubscribeLogs v p i a).2 = true ∧
      ∃ code, p = some code ∧ code < 300) := by
  constructor
  · intro v p i a h
    unfold SubscribeLogs
    rw [if_pos h]
  · intro v p i a h
    unfold SubscribeLogs at h ⊢
    by_cases hg : v a = false ∨ a = []
    · rw [if_pos hg] at h
      exact absurd h (by simp)
    · rw [if_neg hg] at h
      rw [if_neg hg]
      push_neg at hg
      have hv : v a = true := by
        cases hva : v a
        · exact absurd hva hg.1
        · rfl
      refine ⟨hv, hg.2, ?_⟩
      cases p with
      | none => exact absurd h (by simp)
      | some code =>
        dsimp only at h ⊢
        by_cases hcode : 300 ≤ code
        · rw [if_pos hcode] at h
          exact absurd h (by simp)
        · rw [if_neg hcode] at h
          refine ⟨by rw [if_neg hcode], code, rfl, by omega⟩

/-- Witness for C9: an invalid address (the parser rejects everything and
the address is a single character) yields the guard error with no PUT
performed. -/
theorem subscribe_logs_guard_w :
    SubscribeLogs (fun _ => false) none [] ("x".toList) =
      (.error ("wrong http addr".toList), false) :=
  subscribe_logs_guard.1 (fun _ => false) none [] ("x".toList) (Or.inl rfl)

theorem breakNL_some_length (l p r : Str) (h : breakNL l = (p, some r)) :
    r.length < l.length := by
  induction l generalizing p r with
  | nil => simp [breakNL] at h
  | cons c cs ih =>
    by_cases hc : c = '\n'
    · simp [breakNL, hc] at h
      simp [← h.2]
    · simp [breakNL, hc] at h
      have h3 := ih _ _ (show breakNL cs = ((breakNL cs).1, some r) by
        rw [← h.2])
      simp
      omega

theorem breakNL_none_ne_nil (c : Char) (cs p : Str)
    (h : breakNL (c :: cs) = (p, none)) : p ≠ [] := by
  by_cases hc : c = '\n'
  · simp [breakNL, hc] at h
  · simp [breakNL, hc] at h
    intro hp
    rw [hp] at h
    exact List.cons_ne_nil _ _ h.1

theorem linesAux_breakNL (l : Str) : ∀ acc : Str,
    linesAux acc l =
      match breakNL l with
      | (p, some rest) => dropCR (acc.reverse ++ p) :: linesAux [] rest
      | (p, none) =>
        if acc.reverse ++ p = [] then [] else [dropCR (acc.reverse ++ p)] := by
  induction l with
  | nil =>
    intro acc
    by_cases ha : acc = []
    · simp [linesAux, breakNL, ha]
    · simp [linesAux, breakNL, ha]
  | cons c cs ih =>
    intro acc
    by_cases hc : c = '\n'
    · subst hc
      simp [linesAux, breakNL]
    · rw [show linesAux acc (c :: cs) = linesAux (c :: acc) cs by
        simp [linesAux, hc]]
      rw [ih (c :: acc)]
      rw [show breakNL (c :: cs) = (c :: (breakNL cs).1, (breakNL cs).2) by
        simp [breakNL, hc]]
      cases hbr : breakNL cs with
      | mk p r =>
        cases r with
        | none => simp [List.reverse_cons, List.append_assoc]
        | some rest => simp [List.reverse_cons, List.append_assoc]

theorem scanAllF_eq_linesAux : ∀ (fuel : Nat) (l : Str), l.length ≤ fuel →
    scanAllF fuel l = linesAux [] l := by
  intro fuel
  induction fuel with
  | zero =>
    intro l hl
    have hnil : l = [] := List.eq_nil_of_length_eq_zero (Nat.le_zero.mp hl)
    subst hnil
    rfl
  | succ fuel ih =>
    intro l hl
    cases l with
    | nil => rfl
    | cons c cs =>
      rw [linesAux_breakNL (c :: cs) []]
      show (match breakNL (c :: cs) with
        | (pre, none) => [dropCR pre]
        | (pre, some rest) => dropCR pre :: scanAllF fuel rest) = _
      cases hbr : breakNL (c :: cs) with
      | mk p r =>
        cases r with
        | none =>
          have hne : p ≠ [] := breakNL_none_ne_nil c cs p hbr
          simp [hne]
        | some rest =>
          dsimp only
          have hlen := breakNL_some_length (c :: cs) p rest hbr
          rw [ih rest (by simp only [List.length_cons] at hlen hl; omega)]
          simp

/-- C10: when readLines fails to open the named file it returns the slice
holding exactly one empty string (length 1, not an empty result) together
with the open error; on success it returns one slice element per line of
the content with line terminators stripped — the embedded bufio token loop
agrees with the character-by-character line characterization linesAux on
every content. -/
theorem read_lines_behavior :
    readLines none = ([[]], some ("open error".toList)) ∧
    (readLines none).1.length = 1 ∧
    ∀ content : Str, readLines (some content) = (linesAux [] content, none) := by
  refine ⟨rfl, rfl, ?_⟩
  intro content
  unfold readLines
  dsimp only
  rw [show scanAll content = linesAux [] content from
    scanAllF_eq_linesAux content.length content (Nat.le_refl _)]

/-! ### lastIndexOf lemmas -/

theorem lastIndexOf_ge (c : Char) (l : Str) : -1 ≤ lastIndexOf c l := by
  induction l with
  | nil => simp [lastIndexOf]
  | cons x xs ih =>
    simp only [lastIndexOf]
    by_cases h : 0 ≤ lastIndexOf c xs
    · rw [if_pos h]
      omega
    · rw [if_neg h]
      by_cases hx : x = c
      · rw [if_pos hx]
        omega
      · rw [if_neg hx]

theorem lastIndexOf_neg1_iff (c : Char) (l : Str) :
    lastIndexOf c l = -1 ↔ c ∉ l := by
  induction l with
  | nil => simp [lastIndexOf]
  | cons x xs ih =>
    simp only [lastIndexOf]
    by_cases h : 0 ≤ lastIndexOf c xs
    · rw [if_pos h]
      constructor
      · intro he
        omega
      · intro hm
        exfalso
        have hxs : lastIndexOf c xs = -1 :=
          ih.mpr (fun hc => hm (List.mem_cons_of_mem _ hc))
        omega
    · have hxs : lastIndexOf c xs = -1 := by
        have := lastIndexOf_ge c xs
        omega
      have hmem : c ∉ xs := ih.mp hxs
      rw [if_neg h]
      by_cases hx : x = c
      · rw [if_pos hx]
        constructor
        · intro he
          exact absurd he (by norm_num)
        · intro hm
          exact absurd (hx ▸ List.mem_cons_self x xs) hm
      · rw [if_neg hx]
        simp only [List.mem_cons, true_iff]
        intro hor
        rcases hor with h1 | h2
        · exact hx h1.symm
        · exact hmem h2

theorem lastIndexOf_decomp (c : Char) (l : Str) (h : 0 ≤ lastIndexOf c l) :
    ∃ a b, l = a ++ c :: b ∧ c ∉ b ∧ lastIndexOf c l = a.length := by
  induction l with
  | nil => simp [lastIndexOf] at h
  | cons x xs ih =>
    by_cases hxs : 0 ≤ lastIndexOf c xs
    · obtain ⟨a, b, he, hb, hidx⟩ := ih hxs
      refine ⟨x :: a, b, by rw [he, List.cons_append], hb, ?_⟩
      simp only [lastIndexOf]
      rw [if_pos hxs, hidx]
      simp only [List.length_cons]
      push_cast
      ring
    · have hneg : lastIndexOf c xs = -1 := by
        have := lastIndexOf_ge c xs
        omega
      have hmem : c ∉ xs := (lastIndexOf_neg1_iff c xs).mp hneg
      by_cases hx : x = c
      · subst hx
        refine ⟨[], xs, rfl, hmem, ?_⟩
        simp [lastIndexOf, hxs]
      · exfalso
        simp only [lastIndexOf] at h
        rw [if_neg hxs, if_neg hx] at h
        omega

theorem lastIndexOf_of_decomp (c : Char) (a b : Str) (hb : c ∉ b) :
    lastIndexOf c (a ++ c :: b) = a.length := by
  induction a with
  | nil =>
    have hneg : lastIndexOf c b = -1 := (lastIndexOf_neg1_iff c b).mpr hb
    simp only [List.nil_append, lastIndexOf]
    rw [if_neg (by omega)]
    simp
  | cons x a2 ih =>
    simp only [List.cons_append, lastIndexOf, List.append_eq]
    rw [if_pos (by rw [ih]; exact Int.ofNat_nonneg _), ih]
    simp only [List.length_cons]
    push_cast
    ring

theorem lastIndexOf_le_decomp (c : Char) (a b : Str) :
    (a.length : Int) ≤ lastIndexOf c (a ++ c :: b) := by
  induction a with
  | nil =>
    simp only [List.nil_append, lastIndexOf]
    by_cases h : 0 ≤ lastIndexOf c b
    · rw [if_pos h]
      simp
      omega
    · rw [if_neg h]
      simp
  | cons x a2 ih =>
    simp only [List.cons_append, lastIndexOf, List.append_eq]
    rw [if_pos (le_trans (Int.ofNat_nonneg _) ih)]
    simp only [List.length_cons]
    push_cast
    push_cast at ih
    omega

theorem lastIndexOf_append (c : Char) (l m : Str) (h : c ∉ m) :
    lastIndexOf c (l ++ m) = lastIndexOf c l := by
  induction l with
  | nil =>
    simp only [List.nil_append]
    exact (lastIndexOf_neg1_iff c m).mpr h
  | cons x xs ih =>
    simp only [List.cons_append, lastIndexOf, List.append_eq, ih]

theorem lastIndexOf_lt_length (c : Char) (l : Str) :
    lastIndexOf c l < (l.length : Int) := by
  induction l with
  | nil => simp [lastIndexOf]
  | cons x xs ih =>
    simp only [lastIndexOf, List.length_cons]
    by_cases h : 0 ≤ lastIndexOf c xs
    · rw [if_pos h]
      push_cast
      omega
    · rw [if_neg h]
      by_cases hx : x = c
      · rw [if_pos hx]
        push_cast
        omega
      · rw [if_neg hx]
        push_cast
        omega

theorem take_at (x : Char) (a b : Str) : (a ++ x :: b).take a.length = a :=
  List.take_left a (x :: b)

theorem drop_after (x : Char) (a b : Str) :
    (a ++ x :: b).drop (a.length + 1) = b := by
  rw [show a ++ x :: b = (a ++ [x]) ++ b by simp]
  rw [show a.length + 1 = (a ++ [x]).length by simp]
  exact List.drop_left _ _

/-- C8 (amended): SplitImageName errors exactly on the empty input; on any
non-empty input it succeeds, and relative to the sha-stripped remainder the
tag is the substring after the last colon exactly when that colon comes
after the last slash (the tag can be empty when the colon is the final
character), the remaining long name is the part before that colon (the
whole remainder when there is no such colon), and the short name is the
substring after the last slash of the remaining name (the whole remaining
name when it has no slash). -/
theorem split_image_name_behavior :
    (∀ s : Str, (SplitImageName s).isOk = false ↔ s = []) ∧
    (∀ (s long2 short tag : Str),
      SplitImageName s = .ok (long2, short, tag) →
      tagLongSpec (shaStrip s) long2 tag ∧ shortSpec long2 short) := by
  constructor
  · intro s
    unfold SplitImageName
    by_cases hs : s = []
    · rw [if_pos hs]
      simp [hs, Except.isOk, Except.toBool]
    · rw [if_neg hs]
      simp [hs, Except.isOk, Except.toBool]
  · intro s long2 short tag h
    by_cases hs : s = []
    · rw [hs] at h
      exact absurd h (by simp [SplitImageName])
    · unfold SplitImageName at h
      rw [if_neg hs] at h
      dsimp only at h
      simp only [Except.ok.injEq, Prod.mk.injEq] at h
      obtain ⟨hL, hS, hT⟩ := h
      subst hL
      subst hS
      subst hT
      set r := shaStrip s with hrdef
      set lc := lastIndexOf ':' r with hlcdef
      set ls := lastIndexOf '/' r with hlsdef
      by_cases hcond : -1 < lc ∧ ls < lc
      · -- there is a tag: decompose r at its last colon
        have hlc0 : 0 ≤ lc := by omega
        obtain ⟨a, b, hab, hcb, hidx⟩ := lastIndexOf_decomp ':' r hlc0
        rw [← hlcdef] at hidx
        have hslb : '/' ∉ b := by
          intro hmem
          obtain ⟨b1, b2, hbe⟩ := List.append_of_mem hmem
          have hr2 : r = (a ++ ':' :: b1) ++ '/' :: b2 := by
            rw [hab, hbe]
            simp
          have hge : ((a ++ ':' :: b1).length : Int) ≤ ls := by
            rw [hlsdef, hr2]
            exact lastIndexOf_le_decomp '/' (a ++ ':' :: b1) b2
          have hlen : (a ++ ':' :: b1).length = a.length + 1 + b1.length := by
            simp [List.length_append]
            omega
          rw [hlen] at hge
          push_cast at hge
          omega
        have htoNat : lc.toNat = a.length := by
          simp [hidx]
        have htag : r.drop (lc.toNat + 1) = b := by
          rw [htoNat, hab]
          exact drop_after ':' a b
        have hlong : r.take lc.toNat = a := by
          rw [htoNat, hab]
          exact take_at ':' a b
        simp only [if_pos hcond]
        rw [htag, hlong]
        have hsla : ls = lastIndexOf '/' a := by
          rw [hlsdef, hab]
          refine lastIndexOf_append '/' a (':' :: b) ?_
          intro hmem
          rcases List.mem_cons.mp hmem with h1 | h2
          · exact absurd h1 (by decide)
          · exact hslb h2
        constructor
        · exact Or.inl ⟨a, b, hab, hcb, hslb, rfl, rfl⟩
        · by_cases hls0 : 0 ≤ ls
          · obtain ⟨a2, b2, ha2, hb2, hidx2⟩ :=
              lastIndexOf_decomp '/' a (by rw [← hsla]; exact hls0)
            have htoNat2 : ls.toNat = a2.length := by
              rw [hsla, hidx2]
              simp
            rw [if_pos hls0, htoNat2, ha2, drop_after '/' a2 b2]
            exact Or.inl ⟨a2, b2, rfl, hb2, rfl⟩
          · rw [if_neg hls0]
            refine Or.inr ⟨?_, rfl⟩
            have hneg : lastIndexOf '/' a = -1 := by
              have := lastIndexOf_ge '/' a
              rw [← hsla] at this ⊢
              omega
            exact (lastIndexOf_neg1_iff '/' a).mp hneg
      · -- no tag case
        simp only [if_neg hcond]
        constructor
        · refine Or.inr ⟨rfl, rfl, ?_⟩
          intro a b hab
          have hlcge : (a.length : Int) ≤ lc := by
            rw [hlcdef, hab]
            exact lastIndexOf_le_decomp ':' a b
          have hlc0 : 0 ≤ lc := le_trans (Int.ofNat_nonneg _) hlcge
          have hlsge : lc ≤ ls := by
            rcases not_and_or.mp hcond with h1 | h2
            · omega
            · omega
          have hls0 : 0 ≤ ls := le_trans hlc0 hlsge
          obtain ⟨a2, b2, ha2, hb2, hidx2⟩ := lastIndexOf_decomp '/' r hls0
          rw [← hlsdef] at hidx2
          have hcmp : a.length ≤ a2.length := by
            rw [hidx2] at hlsge
            push_cast at hlcge hlsge
            omega
          by_cases heq : a.length = a2.length
          · exfalso
            have hr2 : a ++ ':' :: b = a2 ++ '/' :: b2 := by
              rw [← hab, ← ha2]
            obtain ⟨haa, hbb⟩ := List.append_inj hr2 heq
            injection hbb with hcc
            exact absurd hcc (by decide)
          · have hlt : a.length + 1 ≤ a2.length := by omega
            have hb_eq : b = r.drop (a.length + 1) := by
              rw [hab, drop_after ':' a b]
            rw [hb_eq, ha2,
              List.drop_append_of_le_length hlt]
            exact List.mem_append_right _ (List.mem_cons_self _ _)
        · by_cases hls0 : 0 ≤ ls
          · obtain ⟨a2, b2, ha2, hb2, hidx2⟩ := lastIndexOf_decomp '/' r hls0
            rw [← hlsdef] at hidx2
            have htoNat2 : ls.toNat = a2.length := by
              simp [hidx2]
            rw [if_pos hls0, htoNat2, ha2, drop_after '/' a2 b2]
            exact Or.inl ⟨a2, b2, rfl, hb2, rfl⟩
          · rw [if_neg hls0]
            refine Or.inr ⟨?_, rfl⟩
            have hneg : ls = -1 := by
              have := lastIndexOf_ge '/' r
              rw [← hlsdef] at this
              omega
            exact (lastIndexOf_neg1_iff '/' r).mp (by rw [← hlsdef]; exact hneg)

set_option maxRecDepth 8192 in
/-- Witness for C8: the full-featured image reference with registry, two
path components, tag and sha pin splits as expected and satisfies the
declarative tag and short-name characterizations. -/
theorem split_image_name_behavior_w :
    tagLongSpec (shaStrip w8Image) w8Long w8Tag ∧ shortSpec w8Long w8Short :=
  split_image_name_behavior.2 w8Image w8Long w8Short w8Tag (by rfl)

/-- Counterexample for C8 as stated: on the input consisting of the two
characters a and colon, the last colon occurs after the last slash (there
is none), yet SplitImageName reports an empty tag — refuting that a
non-empty tag is reported exactly when the last colon occurs after the
last slash. -/
theorem split_image_name_tag_cex :
    SplitImageName ("a:".toList) = .ok ("a".toList, "a".toList, []) ∧
    lastIndexOf '/' (shaStrip ("a:".toList)) <
      lastIndexOf ':' (shaStrip ("a:".toList)) ∧
    -1 < lastIndexOf ':' (shaStrip ("a:".toList)) := by
  refine ⟨by rfl, by decide, by decide⟩
